import Mathlib

/-!
# Imagine: fixed-capacity `ArrayList` and the Android `Screen` frame toggle

A shallow embedding of

* `imagine/util/container/ArrayList.hh` (`ArrayListBase` over `StaticStorageBase` /
  `PointerStorageBase`), and
* `imagine/src/base/android/AndroidScreen.cc` (`updateRefreshRate`, `postFrame`,
  `unpostFrame`).

Conventions of the embedding

* The storage `T arr[SIZE]` / `T *arr` is a `List T` whose length is `maxSize()`.
* Iterators (`T*`) are the index of the cell they point at (`position - data()`).
* A call either completes (`Except.ok`) or stops with a `Fault`: a failed `assert`, or
  undefined behaviour (an access outside the storage, an invalid iterator range).
  Assertions are modelled as enabled (a build without `NDEBUG`).
* A `const T&` argument that is read after cells were written (`insert`) is a `Ref`: bound
  to an outside object or to a cell of the storage.
* `size_t` / `uintptr_t` values are natural numbers; on every path that completes no
  unsigned wrap-around occurs.  `int` is 32 bit two's complement.
-/

namespace IG

/-- The two ways a call can stop without completing. -/
inductive Fault where
  /-- an `assert(...)` evaluated to false -/
  | assertion
  /-- a memory access outside the storage or an invalid iterator range -/
  | undefinedBehaviour
deriving DecidableEq, Repr

deriving instance DecidableEq for Except

/-- Outcome of a call: a value, or the fault that stopped it. -/
abbrev Result (α : Type) := Except Fault α

/-- `ArrayListBase<T, STORAGE_BASE>`: the storage cells of the base class and the
private element count `size_`. -/
structure ArrayListBase (T : Type) where
  /-- the cells `storage()[0 .. maxSize())` -/
  arr : List T
  /-- `size_t size_` -/
  size_ : Nat
deriving DecidableEq, Repr

/-- Conversion of a `size_t` argument to the `int` parameter of `operator[]`
(32 bit two's complement, value preserved modulo `2^32`). -/
def toInt (idx : Nat) : Int :=
  if idx % 2 ^ 32 < 2 ^ 31 then ((idx % 2 ^ 32 : Nat) : Int)
  else ((idx % 2 ^ 32 : Nat) : Int) - 2 ^ 32

/-- Forward element-wise loop of `std::move(first, last, d_first)` on the storage:
`while (first != last) *d_first++ = std::move(*first++);` with `fuel = last - first`. -/
def moveLoop {T : Type} : Nat → List T → Nat → Nat → Result (List T)
  | 0, arr, _, _ => .ok arr
  | fuel + 1, arr, first, d_first =>
    match arr[first]? with
    | none => .error .undefinedBehaviour
    | some v =>
      if d_first < arr.length then moveLoop fuel (arr.set d_first v) (first + 1) (d_first + 1)
      else .error .undefinedBehaviour

/-- `std::move(first, last, d_first)`: `[first, last)` has to be a valid range and
`d_first` must not lie inside it. -/
def stdMove {T : Type} (arr : List T) (first last d_first : Nat) : Result (List T) :=
  if first ≤ last ∧ ¬ (first ≤ d_first ∧ d_first < last) then
    moveLoop (last - first) arr first d_first
  else .error .undefinedBehaviour

/-- A `const T&` argument of a member function: the reference is bound either to an object
outside the storage of the list (given by the value it holds), or to the cell of the list's
own storage at index `j` (as in `l.insert(l.begin(), l.back())`). -/
inductive Ref (T : Type) where
  | object (v : T)
  | cell (j : Nat)
deriving DecidableEq, Repr

/-- Reading through a reference while the storage holds `arr`. -/
def Ref.read {T : Type} (r : Ref T) (arr : List T) : Result T :=
  match r with
  | .object v => .ok v
  | .cell j =>
    match arr[j]? with
    | some v => .ok v
    | none => .error .undefinedBehaviour

/-- `std::memmove(&arr[dst], &arr[src], sizeof(T) * n)`: both blocks have to lie inside the
storage; the source block is copied as if through a temporary buffer. -/
def memmove {T : Type} (arr : List T) (dst src n : Nat) : Result (List T) :=
  if src + n ≤ arr.length ∧ dst + n ≤ arr.length then
    .ok (arr.take dst ++ (arr.drop src).take n ++ arr.drop (dst + n))
  else .error .undefinedBehaviour

namespace ArrayListBase

variable {T : Type}

/-- A list over a given storage with `size_ = 0`: a default-constructed
`StaticArrayList` (value-initialised cells) or a `PointerStorageBase` after `setStorage`. -/
def ofStorage (storage : List T) : ArrayListBase T := ⟨storage, 0⟩

/-- `StaticArrayList<T, SIZE>` as constructed: `T arr[SIZE]{}`, `size_ = 0`. -/
def static_ [Inhabited T] (SIZE : Nat) : ArrayListBase T :=
  ofStorage (List.replicate SIZE default)

/-- `size()` -/
def size (a : ArrayListBase T) : Nat := a.size_

/-- `empty()`: `!size()` -/
def empty (a : ArrayListBase T) : Bool := a.size == 0

/-- `capacity()`: `STORAGE_BASE::maxSize()` -/
def capacity (a : ArrayListBase T) : Nat := a.arr.length

/-- `max_size()`: `STORAGE_BASE::maxSize()` -/
def max_size (a : ArrayListBase T) : Nat := a.arr.length

/-- `begin()`: `data()` -/
def begin_ (_a : ArrayListBase T) : Nat := 0

/-- `end()`: `data() + size()` -/
def end_ (a : ArrayListBase T) : Nat := a.begin_ + a.size

/-- The sequence held by the list: the cells in `[begin(), end())`, in iteration order. -/
def toList (a : ArrayListBase T) : List T := a.arr.take a.size_

/-- `resize(size)` -/
def resize (a : ArrayListBase T) (size : Nat) : Result (ArrayListBase T) :=
  if size ≤ a.max_size then .ok { a with size_ := size }
  else .error .assertion

/-- `operator[](int idx)`: `data()[idx]` -/
def index (a : ArrayListBase T) (idx : Int) : Result T :=
  if 0 ≤ idx then
    match a.arr[idx.toNat]? with
    | some v => .ok v
    | none => .error .undefinedBehaviour
  else .error .undefinedBehaviour

/-- `at(idx)`: asserts `idx < size()`, then `(*this)[idx]` (the `size_t` index is passed
to an `int` parameter). -/
def at_ (a : ArrayListBase T) (idx : Nat) : Result T :=
  if idx < a.size then a.index (toInt idx)
  else .error .assertion

/-- The assignment `data()[idx] = v` for a `size_t` index. -/
def store (a : ArrayListBase T) (idx : Nat) (v : T) : Result (ArrayListBase T) :=
  if idx < a.arr.length then .ok { a with arr := a.arr.set idx v }
  else .error .undefinedBehaviour

/-- `clear()` -/
def clear (a : ArrayListBase T) : ArrayListBase T := { a with size_ := 0 }

/-- `pop_back()` -/
def pop_back (a : ArrayListBase T) : Result (ArrayListBase T) :=
  if a.size_ ≠ 0 then .ok { a with size_ := a.size_ - 1 }
  else .error .assertion

/-- `push_back(d)`.  `d` is read before any cell is written, so the `const T&` argument is
given by the value it holds when the call is made. -/
def push_back (a : ArrayListBase T) (d : T) : Result (ArrayListBase T) :=
  if a.size_ < a.max_size then
    match a.store a.size_ d with
    | .ok a1 => .ok { a1 with size_ := a1.size_ + 1 }
    | .error e => .error e
  else .error .assertion

/-- `emplace_back(args...)`: constructs `T(args...)` in the cell `data()[size_]`; the
returned reference is the index of that cell. -/
def emplace_back {A : Type} (a : ArrayListBase T) (ctor : A → T) (args : A) :
    Result (ArrayListBase T × Nat) :=
  if a.size_ < a.max_size then
    let newAddr := a.size_
    match a.store newAddr (ctor args) with
    | .ok a1 => .ok ({ a1 with size_ := a1.size_ + 1 }, newAddr)
    | .error e => .error e
  else .error .assertion

/-- The reference is bound to an object: any object outside the storage, or a cell inside
the storage. -/
def refValid (a : ArrayListBase T) (r : Ref T) : Prop :=
  match r with
  | .object _ => True
  | .cell j => j < a.capacity

instance (a : ArrayListBase T) (r : Ref T) : Decidable (a.refValid r) := by
  unfold refValid
  cases r <;> infer_instance

/-- `insert(position, val)`; returns the list and the iterator `&data()[idx]`.  `val` is a
`const T&` and is read in `data()[idx] = val` only after the block move. -/
def insert (a : ArrayListBase T) (position : Nat) (val : Ref T) :
    Result (ArrayListBase T × Nat) :=
  let idx := position
  if idx ≤ a.size then
    let elemsAfterInsertIdx := a.size - idx
    let moved : Result (List T) :=
      if elemsAfterInsertIdx ≠ 0 then memmove a.arr (idx + 1) idx elemsAfterInsertIdx
      else .ok a.arr
    match moved with
    | .error e => .error e
    | .ok arr1 =>
      match val.read arr1 with
      | .error e => .error e
      | .ok v =>
        match ({ a with arr := arr1 } : ArrayListBase T).store idx v with
        | .error e => .error e
        | .ok a2 => .ok ({ a2 with size_ := a2.size_ + 1 }, idx)
  else .error .assertion

/-- `erase(position)`; returns the list and the iterator `position`.  The decrement
`size_--` is only reached with `size_ ≥ 1`: with `size_ = 0` the range
`[position + 1, end())` handed to `std::move` is invalid. -/
def erase (a : ArrayListBase T) (position : Nat) : Result (ArrayListBase T × Nat) :=
  let moved : Result (List T) :=
    if position + 1 ≠ a.end_ then stdMove a.arr (position + 1) a.end_ position
    else .ok a.arr
  match moved with
  | .error e => .error e
  | .ok arr1 => .ok ({ arr := arr1, size_ := a.size_ - 1 }, position)

/-- `erase(first, last)`; returns the list and the iterator `first`.
`std::distance(first, last)` is the signed difference `last - first`. -/
def eraseRange (a : ArrayListBase T) (first last : Nat) : Result (ArrayListBase T × Nat) :=
  if first ≠ last then
    let moved : Result (List T) :=
      if last ≠ a.end_ then stdMove a.arr last a.end_ first
      else .ok a.arr
    match moved with
    | .error e => .error e
    | .ok arr1 =>
      .ok ({ arr := arr1, size_ := ((a.size_ : Int) - ((last : Int) - (first : Int))).toNat },
        first)
  else .ok (a, first)

/-- `push_back(v_0); ...; push_back(v_{n-1})` in order, stopping at the first fault. -/
def pushAll (a : ArrayListBase T) : List T → Result (ArrayListBase T)
  | [] => .ok a
  | v :: vs =>
    match a.push_back v with
    | .ok a1 => pushAll a1 vs
    | .error e => .error e

/-- `insert(begin() + pos, v_0); insert(begin() + pos + 1, v_1); ...`: inserts the values
in order at consecutive positions, stopping at the first fault.  The values are objects
outside the storage. -/
def insertAll (a : ArrayListBase T) (pos : Nat) : List T → Result (ArrayListBase T)
  | [] => .ok a
  | v :: vs =>
    match a.insert pos (.object v) with
    | .ok (a1, _) => insertAll a1 (pos + 1) vs
    | .error e => .error e

/-- `insert(begin() + pos, val)` followed by `erase(begin() + pos)`. -/
def insertThenErase (a : ArrayListBase T) (pos : Nat) (val : Ref T) :
    Result (ArrayListBase T) :=
  match a.insert pos val with
  | .ok (a1, _) =>
    match a1.erase pos with
    | .ok (a2, _) => .ok a2
    | .error e => .error e
  | .error e => .error e

/-- `erase(begin() + first, begin() + last)` followed by re-inserting the removed elements
(saved beforehand) in their original order at `first`, `first + 1`, ... -/
def eraseThenReinsert (a : ArrayListBase T) (first last : Nat) : Result (ArrayListBase T) :=
  let removed := (a.toList.drop first).take (last - first)
  match a.eraseRange first last with
  | .ok (a1, it) => a1.insertAll it removed
  | .error e => .error e

end ArrayListBase

end IG

/-! ## `Base::Screen` (Android) -/

namespace Base

/-- Value of a `float` / `double` as far as comparison and assignment are concerned: a NaN,
an infinity, or a finite number (the two zeros are not told apart). -/
inductive FloatVal where
  | nan
  | negInf
  | finite (q : ℚ)
  | posInf
deriving DecidableEq

namespace FloatVal

/-- The comparison `x < y` on floating-point values; false whenever an operand is a NaN. -/
def lt : FloatVal → FloatVal → Bool
  | nan, _ => false
  | _, nan => false
  | negInf, negInf => false
  | negInf, _ => true
  | _, negInf => false
  | posInf, _ => false
  | finite _, posInf => true
  | finite a, finite b => decide (a < b)

/-- The comparison `x > y`, that is `y < x`. -/
def gt (x y : FloatVal) : Bool := lt y x

/-- The value is a number within `[lo, hi]`, bounds included. -/
def within (x : FloatVal) (lo hi : ℚ) : Prop :=
  match x with
  | finite q => lo ≤ q ∧ q ≤ hi
  | _ => False

instance (x : FloatVal) (lo hi : ℚ) : Decidable (x.within lo hi) := by
  unfold within
  cases x <;> infer_instance

end FloatVal

/-- The fields of `Screen` / `AndroidScreen` read or written by `updateRefreshRate`,
`postFrame` and `unpostFrame` (the class declarations are in Screen.hh and
AndroidScreen.hh). -/
structure Screen where
  refreshRate_ : FloatVal
  reliableRefreshRate : Bool
  frameTime_ : FloatVal
  framePosted : Bool
  inFrameHandler : Bool
  /-- a time stamp; the value-initialised `{}` is 0 -/
  prevFrameTimestamp : Nat
deriving DecidableEq

/-- `AndroidScreen::updateRefreshRate(refreshRate)`.  `recip x` stands for
`IG::FloatSeconds(1. / x)`, the division carried out in `double` and converted to the frame
time type (declared in imagine/time/Time.hh).  The two `log` calls have no effect on the
screen. -/
def Screen.updateRefreshRate (recip : FloatVal → FloatVal) (s : Screen)
    (refreshRate : FloatVal) : Screen :=
  if refreshRate.lt (.finite 20) || refreshRate.gt (.finite 250) then
    let refreshRate := FloatVal.finite 60
    { s with reliableRefreshRate := false, refreshRate_ := refreshRate,
             frameTime_ := recip refreshRate }
  else
    { s with refreshRate_ := refreshRate, frameTime_ := recip refreshRate }

/-- A call received by the frame timer. -/
inductive TimerCall where
  | scheduleVSync
  | cancel
deriving DecidableEq

/-- Modelled from the spec: the platform frame timer `frameTimer` (its class is declared in
SimpleFrameTimer.hh and the Android sources, not given).  "when posted, arms a platform
vsync timer"; "disarms the timer".  The calls it received are kept in order. -/
structure FrameTimer where
  armed : Bool
  calls : List TimerCall
deriving DecidableEq

/-- Modelled from the spec: `frameTimer->scheduleVSync()` "arms a platform vsync timer". -/
def FrameTimer.scheduleVSync (t : FrameTimer) : FrameTimer :=
  { armed := true, calls := t.calls ++ [.scheduleVSync] }

/-- Modelled from the spec: `frameTimer->cancel()` "disarms the timer". -/
def FrameTimer.cancel (t : FrameTimer) : FrameTimer :=
  { armed := false, calls := t.calls ++ [.cancel] }

/-- The state `postFrame` / `unpostFrame` work on: the screen the member function is called
on, the other screens of the global list `screen_`, the shared `frameTimer`, and `isActive`.
Modelled from the spec: `isActive` is declared outside the given sources; "`postFrame` is a
no-op if the screen set is inactive (app not in foreground)". -/
structure ScreenSet where
  self : Screen
  others : List Screen
  frameTimer : FrameTimer
  isActive : Bool
deriving DecidableEq

/-- Modelled from the spec: `screensArePosted()` (defined in the common Screen.cc, not
given): some screen of the set is posted ("disarms the timer only when no screen in the set
remains posted"). -/
def ScreenSet.screensArePosted (w : ScreenSet) : Bool :=
  (w.self :: w.others).any (fun s => s.framePosted)

/-- `Screen::postFrame()` -/
def ScreenSet.postFrame (w : ScreenSet) : ScreenSet :=
  if !w.isActive then w
  else if w.self.framePosted then w
  else
    let s1 : Screen := { w.self with framePosted := true }
    let t1 := w.frameTimer.scheduleVSync
    let s2 : Screen := if !s1.inFrameHandler then { s1 with prevFrameTimestamp := 0 } else s1
    { w with self := s2, frameTimer := t1 }

/-- `Screen::unpostFrame()` -/
def ScreenSet.unpostFrame (w : ScreenSet) : ScreenSet :=
  if !w.self.framePosted then w
  else
    let w1 : ScreenSet := { w with self := { w.self with framePosted := false } }
    if !w1.screensArePosted then { w1 with frameTimer := w1.frameTimer.cancel }
    else w1

end Base

namespace IG

/-! ## Storage-level lemmas -/

theorem moveLoop_ok {T : Type} : ∀ (n : Nat) (arr : List T) (first d : Nat),
    d ≤ first → first + n ≤ arr.length →
    ∃ r, moveLoop n arr first d = .ok r ∧ r.length = arr.length ∧
      ∀ i, r[i]? = if d ≤ i ∧ i < d + n then arr[first + (i - d)]? else arr[i]? := by
  intro n
  induction n with
  | zero =>
    intro arr first d _ _
    refine ⟨arr, rfl, rfl, ?_⟩
    intro i
    have h : ¬ (d ≤ i ∧ i < d + 0) := by omega
    rw [if_neg h]
  | succ n ih =>
    intro arr first d hd hlen
    have hf : first < arr.length := by omega
    have hdl : d < arr.length := by omega
    obtain ⟨r, hr, hrl, hri⟩ := ih (arr.set d arr[first]) (first + 1) (d + 1) (by omega)
      (by simp; omega)
    refine ⟨r, ?_, ?_, ?_⟩
    · simp [moveLoop, List.getElem?_eq_getElem hf, hdl, hr]
    · simpa using hrl
    · intro i
      rw [hri i]
      simp only [List.getElem?_set]
      by_cases h1 : d + 1 ≤ i ∧ i < d + 1 + n
      · have h2 : d ≤ i ∧ i < d + (n + 1) := by omega
        have h3 : ¬ (d = first + (i - d)) := by omega
        have h4 : first + 1 + (i - (d + 1)) = first + (i - d) := by omega
        rw [if_pos h1, if_pos h2, h4, if_neg h3]
      · by_cases h5 : d = i
        · subst h5
          have h2 : d ≤ d ∧ d < d + (n + 1) := by omega
          simp [h2, hdl, List.getElem?_eq_getElem hf]
        · have h2 : ¬ (d ≤ i ∧ i < d + (n + 1)) := by omega
          simp [h1, h2, h5]

theorem stdMove_ok {T : Type} (arr : List T) (first last d : Nat)
    (hd : d < first) (hfl : first ≤ last) (hlen : last ≤ arr.length) :
    ∃ r, stdMove arr first last d = .ok r ∧ r.length = arr.length ∧
      ∀ i, r[i]? = if d ≤ i ∧ i < d + (last - first) then arr[first + (i - d)]? else arr[i]? := by
  have hc : first ≤ last ∧ ¬ (first ≤ d ∧ d < last) := by omega
  unfold stdMove
  rw [if_pos hc]
  exact moveLoop_ok (last - first) arr first d (by omega) (by omega)

theorem memmove_ok {T : Type} (arr : List T) (dst src n : Nat)
    (hs : src + n ≤ arr.length) (hd : dst + n ≤ arr.length) :
    ∃ r, memmove arr dst src n = .ok r ∧ r.length = arr.length ∧
      ∀ i, r[i]? = if dst ≤ i ∧ i < dst + n then arr[src + (i - dst)]? else arr[i]? := by
  refine ⟨arr.take dst ++ (arr.drop src).take n ++ arr.drop (dst + n), ?_, ?_, ?_⟩
  · unfold memmove
    rw [if_pos ⟨hs, hd⟩]
  · simp only [List.length_append, List.length_take, List.length_drop]
    omega
  · intro i
    simp only [List.getElem?_take, List.getElem?_append, List.length_append,
      List.length_take, List.getElem?_drop, List.length_drop]
    have hm1 : min dst arr.length = dst := by omega
    have hm2 : min n (arr.length - src) = n := by omega
    simp only [hm1, hm2]
    split_ifs <;> first | rfl | omega | (congr 1; omega)

/-! ## `ArrayListBase` lemmas -/

namespace ArrayListBase

variable {T : Type}

theorem push_back_ok (a : ArrayListBase T) (d : T) (h : a.size_ < a.arr.length) :
    a.push_back d = .ok ⟨a.arr.set a.size_ d, a.size_ + 1⟩ := by
  simp [push_back, max_size, store, h]

theorem toList_push (a : ArrayListBase T) (d : T) (h : a.size_ < a.arr.length) :
    (⟨a.arr.set a.size_ d, a.size_ + 1⟩ : ArrayListBase T).toList = a.toList ++ [d] := by
  apply List.ext_getElem?
  intro i
  simp only [toList, List.getElem?_take, List.getElem?_set, List.getElem?_append,
    List.length_take]
  have hm : min a.size_ a.arr.length = a.size_ := Nat.min_eq_left (Nat.le_of_lt h)
  rw [hm]
  by_cases h1 : i < a.size_
  · have h2 : i < a.size_ + 1 := by omega
    have h3 : ¬ a.size_ = i := by omega
    rw [if_pos h1, if_pos h1, if_pos h2, if_neg h3]
  · by_cases h2 : i = a.size_
    · subst h2
      simp [h]
    · have h3 : ¬ i < a.size_ + 1 := by omega
      have h4 : 1 ≤ i - a.size_ := by omega
      rw [if_neg h1, if_neg h3]
      simp [h4]

theorem insert_moved (a : ArrayListBase T) (idx : Nat)
    (hidx : idx ≤ a.size_) (hfree : a.size_ < a.arr.length) :
    ∃ r, (if a.size_ - idx ≠ 0 then memmove a.arr (idx + 1) idx (a.size_ - idx)
        else .ok a.arr) = .ok r ∧ r.length = a.arr.length ∧
      ∀ i, r[i]? = if idx + 1 ≤ i ∧ i < idx + 1 + (a.size_ - idx) then
        a.arr[idx + (i - (idx + 1))]? else a.arr[i]? := by
  by_cases hn : a.size_ - idx = 0
  · refine ⟨a.arr, by simp [hn], rfl, ?_⟩
    intro i
    have h : ¬ (idx + 1 ≤ i ∧ i < idx + 1 + (a.size_ - idx)) := by omega
    rw [if_neg h]
  · obtain ⟨r, hr, hrl, hri⟩ := memmove_ok a.arr (idx + 1) idx (a.size_ - idx)
      (by omega) (by omega)
    exact ⟨r, by simp [hn, hr], hrl, hri⟩

theorem insert_ok (a : ArrayListBase T) (idx : Nat) (val : Ref T)
    (hidx : idx ≤ a.size_) (hfree : a.size_ < a.arr.length) (hval : a.refValid val) :
    ∃ a1 w, a.insert idx val = .ok (a1, idx) ∧ a1.size_ = a.size_ + 1 ∧
      a1.arr.length = a.arr.length ∧
      a1.toList = a.toList.take idx ++ w :: a.toList.drop idx ∧
      ((∀ j, val = .cell j → j ≤ idx ∨ a.size_ < j) → val.read a.arr = .ok w) := by
  obtain ⟨r, hr, hrl, hri⟩ := insert_moved a idx hidx hfree
  have hl : idx < r.length := by omega
  have hw : ∃ w, val.read r = .ok w ∧
      ((∀ j, val = .cell j → j ≤ idx ∨ a.size_ < j) → val.read a.arr = .ok w) := by
    cases val with
    | object v => exact ⟨v, rfl, fun _ => rfl⟩
    | cell j =>
      have hj : j < r.length := by
        simp only [refValid, capacity] at hval
        omega
      refine ⟨r[j], by simp [Ref.read, List.getElem?_eq_getElem hj], ?_⟩
      intro hna
      have hc : ¬ (idx + 1 ≤ j ∧ j < idx + 1 + (a.size_ - idx)) := by
        have := hna j rfl
        omega
      have e := hri j
      rw [if_neg hc, List.getElem?_eq_getElem hj] at e
      simp only [Ref.read, ← e]
  obtain ⟨w, hw1, hw2⟩ := hw
  refine ⟨⟨r.set idx w, a.size_ + 1⟩, w, ?_, rfl, by simp [hrl], ?_, hw2⟩
  · simp only [insert, size, hidx, if_true, hr, hw1, store, hl]
  · apply List.ext_getElem?
    intro i
    simp only [toList, List.getElem?_take, List.getElem?_set, List.getElem?_append,
      List.length_take, List.getElem?_cons, List.getElem?_drop, List.take_take, hri]
    have hm1 : min idx a.size_ = idx := by omega
    have hm2 : min idx a.arr.length = idx := by omega
    simp only [hm1, hm2]
    split_ifs <;> first | rfl | omega

theorem insert_object_ok (a : ArrayListBase T) (idx : Nat) (v : T)
    (hidx : idx ≤ a.size_) (hfree : a.size_ < a.arr.length) :
    ∃ a1, a.insert idx (.object v) = .ok (a1, idx) ∧ a1.size_ = a.size_ + 1 ∧
      a1.arr.length = a.arr.length ∧
      a1.toList = a.toList.take idx ++ v :: a.toList.drop idx := by
  obtain ⟨a1, w, h1, h2, h3, h4, h5⟩ := insert_ok a idx (.object v) hidx hfree trivial
  have hw : v = w := by
    have e := h5 (fun j hj => by cases hj)
    simpa [Ref.read] using e
  subst hw
  exact ⟨a1, h1, h2, h3, h4⟩

theorem eraseRange_ok (a : ArrayListBase T) (first last : Nat)
    (hfl : first ≤ last) (hls : last ≤ a.size_) (hinv : a.size_ ≤ a.arr.length) :
    ∃ a1, a.eraseRange first last = .ok (a1, first) ∧
      a1.size_ = a.size_ - (last - first) ∧ a1.arr.length = a.arr.length ∧
      a1.toList = a.toList.take first ++ a.toList.drop last := by
  have hsz : ((a.size_ : Int) - ((last : Int) - (first : Int))).toNat
      = a.size_ - (last - first) := by omega
  by_cases h0 : first = last
  · subst h0
    refine ⟨a, by simp [eraseRange], by simp, rfl, by simp⟩
  · by_cases h1 : last = a.size_
    · subst h1
      have hsz2 : a.size_ - (a.size_ - first) = first := by omega
      refine ⟨⟨a.arr, a.size_ - (a.size_ - first)⟩, ?_, rfl, rfl, ?_⟩
      · simp [eraseRange, h0, end_, begin_, size, hsz2]
      · apply List.ext_getElem?
        intro i
        simp only [toList, List.getElem?_take, List.getElem?_append, List.length_take,
          List.getElem?_drop, List.take_take]
        have hm1 : min first a.size_ = first := by omega
        have hm2 : min first a.arr.length = first := by omega
        simp only [hm1, hm2]
        split_ifs <;> first | rfl | omega
    · obtain ⟨r, hr, hrl, hri⟩ := stdMove_ok a.arr last a.size_ first (by omega) hls hinv
      refine ⟨⟨r, a.size_ - (last - first)⟩, ?_, rfl, hrl, ?_⟩
      · simp [eraseRange, h0, end_, begin_, size, h1, hsz, hr]
      · apply List.ext_getElem?
        intro i
        simp only [toList, List.getElem?_take, List.getElem?_append, List.length_take,
          List.getElem?_drop, List.take_take, hri]
        have hm1 : min first a.size_ = first := by omega
        have hm2 : min first a.arr.length = first := by omega
        simp only [hm1, hm2]
        split_ifs <;> first | rfl | omega

theorem erase_ok (a : ArrayListBase T) (pos : Nat)
    (hpos : pos < a.size_) (hinv : a.size_ ≤ a.arr.length) :
    ∃ a1, a.erase pos = .ok (a1, pos) ∧ a1.size_ = a.size_ - 1 ∧
      a1.arr.length = a.arr.length ∧
      a1.toList = a.toList.take pos ++ a.toList.drop (pos + 1) := by
  by_cases h1 : pos + 1 = a.size_
  · refine ⟨⟨a.arr, a.size_ - 1⟩, ?_, rfl, rfl, ?_⟩
    · simp [erase, end_, begin_, size, h1]
    · apply List.ext_getElem?
      intro i
      simp only [toList, List.getElem?_take, List.getElem?_append, List.length_take,
        List.getElem?_drop, List.take_take]
      have hm1 : min pos a.size_ = pos := by omega
      have hm2 : min pos a.arr.length = pos := by omega
      simp only [hm1, hm2]
      split_ifs <;> first | rfl | omega
  · obtain ⟨r, hr, hrl, hri⟩ := stdMove_ok a.arr (pos + 1) a.size_ pos (by omega)
      (by omega) hinv
    refine ⟨⟨r, a.size_ - 1⟩, ?_, rfl, hrl, ?_⟩
    · simp [erase, end_, begin_, size, h1, hr]
    · apply List.ext_getElem?
      intro i
      simp only [toList, List.getElem?_take, List.getElem?_append, List.length_take,
        List.getElem?_drop, List.take_take, hri]
      have hm1 : min pos a.size_ = pos := by omega
      have hm2 : min pos a.arr.length = pos := by omega
      simp only [hm1, hm2]
      split_ifs <;> first | rfl | omega

theorem toList_length (a : ArrayListBase T) (hinv : a.size_ ≤ a.arr.length) :
    a.toList.length = a.size_ := by
  simp [toList, hinv]

theorem pushAll_ok : ∀ (vs : List T) (a : ArrayListBase T),
    a.size_ + vs.length ≤ a.arr.length →
    ∃ a1, a.pushAll vs = .ok a1 ∧ a1.size_ = a.size_ + vs.length ∧
      a1.arr.length = a.arr.length ∧ a1.toList = a.toList ++ vs := by
  intro vs
  induction vs with
  | nil =>
    intro a _
    exact ⟨a, rfl, rfl, rfl, by simp⟩
  | cons v vs ih =>
    intro a h
    have hlt : a.size_ < a.arr.length := by
      simp only [List.length_cons] at h
      omega
    obtain ⟨a1, h1, h2, h3, h4⟩ := ih ⟨a.arr.set a.size_ v, a.size_ + 1⟩ (by
      simp only [List.length_cons, List.length_set] at h ⊢
      omega)
    simp only [List.length_set] at h2 h3
    refine ⟨a1, ?_, ?_, ?_, ?_⟩
    · simp only [pushAll, push_back_ok a v hlt]
      exact h1
    · simp only [List.length_cons]
      omega
    · exact h3
    · rw [h4, toList_push a v hlt]
      simp

theorem insertAll_ok : ∀ (vs : List T) (a : ArrayListBase T) (pos : Nat),
    pos ≤ a.size_ → a.size_ + vs.length ≤ a.arr.length →
    ∃ a1, a.insertAll pos vs = .ok a1 ∧ a1.size_ = a.size_ + vs.length ∧
      a1.arr.length = a.arr.length ∧
      a1.toList = a.toList.take pos ++ vs ++ a.toList.drop pos := by
  intro vs
  induction vs with
  | nil =>
    intro a pos _ _
    exact ⟨a, rfl, rfl, rfl, by simp⟩
  | cons v vs ih =>
    intro a pos hpos h
    simp only [List.length_cons] at h
    obtain ⟨a1, h1, h2, h3, h4⟩ := insert_object_ok a pos v hpos (by omega)
    obtain ⟨a2, g1, g2, g3, g4⟩ := ih a1 (pos + 1) (by omega) (by omega)
    have hl : (List.take pos a.toList).length = pos := by
      rw [List.length_take, toList_length a (by omega)]
      omega
    refine ⟨a2, ?_, ?_, ?_, ?_⟩
    · simp only [insertAll, h1]
      exact g1
    · simp only [List.length_cons]
      omega
    · omega
    · rw [g4, h4]
      have e1 : List.take (pos + 1) (List.take pos a.toList ++ v :: List.drop pos a.toList)
          = List.take pos a.toList ++ [v] := by
        rw [List.take_append_eq_append_take, hl]
        simp
      have e2 : List.drop (pos + 1) (List.take pos a.toList ++ v :: List.drop pos a.toList)
          = List.drop pos a.toList := by
        rw [List.drop_append_eq_append_drop, hl]
        simp
      rw [e1, e2]
      simp

theorem at_ok (a : ArrayListBase T) (k : Nat) (hk : k < a.size_) (hinv : a.size_ ≤ a.arr.length)
    (hint : k < 2 ^ 31) : a.at_ k = .ok (a.toList.get ⟨k, by rw [toList_length a hinv]; exact hk⟩) := by
  have hmod : k % 2 ^ 32 = k := Nat.mod_eq_of_lt (by omega)
  have hkl : k < a.arr.length := by omega
  have hti : toInt k = (k : Int) := by
    unfold toInt
    rw [hmod, if_pos hint]
  unfold at_ index
  rw [if_pos (by simpa [size] using hk), hti, if_pos (by omega)]
  simp [toList, List.getElem?_eq_getElem hkl]

theorem at_out_of_int_range (a : ArrayListBase T) (k : Nat) (hk : k < a.size_)
    (hint : 2 ^ 31 ≤ k % 2 ^ 32) : a.at_ k = .error .undefinedBehaviour := by
  have hlt : k % 2 ^ 32 < 2 ^ 32 := Nat.mod_lt _ (by norm_num)
  have hti : ¬ (0 ≤ toInt k) := by
    unfold toInt
    rw [if_neg (by omega)]
    omega
  unfold at_ index
  rw [if_pos (by simpa [size] using hk), if_neg hti]

theorem getElem?_insert_shift (l : List T) (i : Nat) (v : T) (hi : i ≤ l.length) :
    (∀ j, j < i → (l.take i ++ v :: l.drop i)[j]? = l[j]?) ∧
    (l.take i ++ v :: l.drop i)[i]? = some v ∧
    (∀ j, i ≤ j → (l.take i ++ v :: l.drop i)[j + 1]? = l[j]?) := by
  have hl : (l.take i).length = i := by simp [hi]
  refine ⟨?_, ?_, ?_⟩
  · intro j hj
    rw [List.getElem?_append_left (by omega), List.getElem?_take_of_lt hj]
  · rw [List.getElem?_append_right (by omega), hl]
    simp
  · intro j hj
    rw [List.getElem?_append_right (by omega), hl]
    have e : j + 1 - i = (j - i) + 1 := by omega
    rw [e, List.getElem?_cons_succ, List.getElem?_drop]
    congr 1
    omega

theorem pushAll_then_at_large (storage vs : List T) (hs : storage.length = 2 ^ 31 + 1)
    (hv : vs.length = 2 ^ 31 + 1) :
    ∃ a1, (ofStorage storage).pushAll vs = .ok a1 ∧
      a1.size = 2 ^ 31 + 1 ∧ a1.at_ (2 ^ 31) = .error .undefinedBehaviour := by
  obtain ⟨a1, h1, h2, _, _⟩ := pushAll_ok vs (ofStorage storage) (by
    simp only [ofStorage]
    omega)
  simp only [ofStorage, Nat.zero_add] at h2
  refine ⟨a1, h1, by rw [size, h2, hv], ?_⟩
  apply at_out_of_int_range a1 (2 ^ 31) (by omega)
  norm_num

/-! ## The claims about `ArrayListBase` -/

/-- From an empty list over a storage of `c` cells, `push_back(v_0)`, ...,
`push_back(v_{n-1})` with `n ≤ c` all complete; afterwards `size() = n`, the capacity is
still `c`, the cells `[begin(), end())` hold `v_0 .. v_{n-1}` in insertion order for every
capacity, and `at(k)` returns `v_k` for every `k < n` that fits the `int` parameter of
`operator[]` (`k < 2^31`). -/
theorem push_back_sequence (storage vs : List T) (h : vs.length ≤ storage.length) :
    ∃ a1, (ofStorage storage).pushAll vs = .ok a1 ∧ a1.size = vs.length ∧
      a1.capacity = storage.length ∧ a1.toList = vs ∧
      ∀ k (hk : k < vs.length), k < 2 ^ 31 → a1.at_ k = .ok vs[k] := by
  obtain ⟨a1, h1, h2, h3, h4⟩ := pushAll_ok vs (ofStorage storage) (by
    simp only [ofStorage]
    omega)
  simp only [ofStorage, Nat.zero_add] at h2 h3
  have h5 : a1.toList = vs := by
    rw [h4]
    simp [toList, ofStorage]
  refine ⟨a1, h1, h2, h3, h5, ?_⟩
  intro k hk hint
  rw [at_ok a1 k (by omega) (by omega) hint]
  simp [h5]

/-- Capacity 4, pushing 1, 2, 3. -/
theorem push_back_sequence_witness :
    [1, 2, 3].length ≤ [0, 0, 0, 0].length ∧
    ∃ a1, (ofStorage [0, 0, 0, 0]).pushAll [1, 2, 3] = .ok a1 ∧ a1.size = 3 ∧
      a1.toList = [1, 2, 3] ∧ a1.at_ 2 = .ok 3 := by
  refine ⟨by decide, ?_⟩
  obtain ⟨a1, h1, h2, _, h4, h5⟩ := push_back_sequence [0, 0, 0, 0] [1, 2, 3] (by decide)
  exact ⟨a1, h1, h2, h4, h5 2 (by decide) (by norm_num)⟩

/-- C1 (the failing input, evaluated): with capacity `2^31 + 1` and `2^31 + 1` pushed
values, all the calls complete and `size()` is `2^31 + 1`, but `at(2^31)` does not return
the value pushed at index `2^31`: its assertion `idx < size()` holds, and the `size_t` index
then becomes the negative `int` `-2^31` in `operator[]`, a read outside the storage. -/
theorem at_narrows_index_after_push_back :
    ∃ a1, (ofStorage (List.replicate (2 ^ 31 + 1) (0 : Nat))).pushAll
        (List.replicate (2 ^ 31 + 1) 7) = .ok a1 ∧
      a1.size = 2 ^ 31 + 1 ∧ a1.at_ (2 ^ 31) = .error .undefinedBehaviour :=
  pushAll_then_at_large _ _ (List.length_replicate _ _) (List.length_replicate _ _)

/-- The part of the insert contract that holds: on a non-full list holding `l`,
`insert(begin() + i, val)` with `i ≤ size()`, where `val` is bound to an object outside the
storage or to a cell outside the moved block `(i, size()]`, and holds `v` when the call is
made, completes, returns the iterator at index `i`, and leaves the list holding
`(first i elements of l) ++ [v] ++ (elements of l from index i on)`: the elements below `i`
stay, `v` is at index `i`, every element at an index `j` in `[i, size)` is now at `j + 1`,
`size()` has grown by exactly one and `capacity()` is unchanged. -/
theorem insert_shifts_tail (a : ArrayListBase T) (i : Nat) (val : Ref T) (v : T)
    (hfree : a.size < a.capacity) (hi : i ≤ a.size) (hval : a.refValid val)
    (hread : val.read a.arr = .ok v)
    (hout : ∀ j, val = .cell j → j ≤ i ∨ a.size < j) :
    ∃ a1, a.insert (a.begin_ + i) val = .ok (a1, a1.begin_ + i) ∧
      a1.toList = a.toList.take i ++ [v] ++ a.toList.drop i ∧
      a1.size = a.size + 1 ∧ a1.capacity = a.capacity ∧
      (∀ j, j < i → a1.toList[j]? = a.toList[j]?) ∧
      a1.toList[i]? = some v ∧
      (∀ j, i ≤ j → j < a.size → a1.toList[j + 1]? = a.toList[j]?) := by
  simp only [size, capacity, begin_, Nat.zero_add] at *
  obtain ⟨a1, w, h1, h2, h3, h4, h5⟩ := insert_ok a i val hi hfree hval
  have hw : v = w := by
    have e := h5 hout
    rw [hread] at e
    injection e
  subst hw
  have hl : i ≤ a.toList.length := by
    rw [toList_length a (by omega)]
    exact hi
  obtain ⟨g1, g2, g3⟩ := getElem?_insert_shift a.toList i v hl
  refine ⟨a1, h1, by simp [h4], h2, h3, ?_, ?_, ?_⟩
  · intro j hj
    rw [h4]
    exact g1 j hj
  · rw [h4]
    exact g2
  · intro j hj _
    rw [h4]
    exact g3 j hj

/-- Capacity 4 holding `[1, 2, 3]`, insert at index 1 the value 9 of an outside object
gives `[1, 9, 2, 3]`. -/
theorem insert_shifts_tail_witness :
    (⟨[1, 2, 3, 0], 3⟩ : ArrayListBase Nat).size < (⟨[1, 2, 3, 0], 3⟩ : ArrayListBase Nat).capacity ∧
    1 ≤ (⟨[1, 2, 3, 0], 3⟩ : ArrayListBase Nat).size ∧
    ∃ a1, (⟨[1, 2, 3, 0], 3⟩ : ArrayListBase Nat).insert 1 (.object 9) = .ok (a1, 1) ∧
      a1.toList = [1, 9, 2, 3] ∧ a1.size = 4 := by
  refine ⟨by decide, by decide, ?_⟩
  obtain ⟨a1, h1, h2, h3, _⟩ :=
    insert_shifts_tail (⟨[1, 2, 3, 0], 3⟩ : ArrayListBase Nat) 1 (.object 9) 9
      (by decide) (by decide) trivial rfl (fun j hj => by cases hj)
  exact ⟨a1, h1, h2, h3⟩

/-- C2 (the failing input, evaluated): on the non-full list of capacity 4 holding
`[1, 2, 3]`, `l.insert(l.begin(), l.back())` passes the value 3 by reference to the last
cell; the block move overwrites that cell before `data()[idx] = val` reads it, so the list
ends up holding `[2, 1, 2, 3]` and not `[3] ++ [1, 2, 3]`. -/
theorem insert_reads_value_after_move :
    (⟨[1, 2, 3, 0], 3⟩ : ArrayListBase Nat).size < (⟨[1, 2, 3, 0], 3⟩ : ArrayListBase Nat).capacity ∧
    0 ≤ (⟨[1, 2, 3, 0], 3⟩ : ArrayListBase Nat).size ∧
    (Ref.cell 2 : Ref Nat).read (⟨[1, 2, 3, 0], 3⟩ : ArrayListBase Nat).arr = .ok 3 ∧
    (⟨[1, 2, 3, 0], 3⟩ : ArrayListBase Nat).insert 0 (.cell 2) = .ok (⟨[2, 1, 2, 3], 4⟩, 0) ∧
    (⟨[2, 1, 2, 3], 4⟩ : ArrayListBase Nat).toList = [2, 1, 2, 3] ∧
    (⟨[2, 1, 2, 3], 4⟩ : ArrayListBase Nat).toList ≠
      (⟨[1, 2, 3, 0], 3⟩ : ArrayListBase Nat).toList.take 0 ++ [3] ++
        (⟨[1, 2, 3, 0], 3⟩ : ArrayListBase Nat).toList.drop 0 := by
  decide

/-- C3: on a list holding `l` (with `size() ≤ capacity()`), `erase(begin() + first,
begin() + last)` with `first ≤ last ≤ size()` completes, returns the iterator at index
`first`, leaves the list holding `(first "first" elements of l) ++ (elements of l from index
last on)`, and reduces `size()` by exactly `last - first`; with `first = last` the list
(storage and size) is unchanged. -/
theorem eraseRange_closes_gap (a : ArrayListBase T) (first last : Nat)
    (hinv : a.size ≤ a.capacity) (hfl : first ≤ last) (hls : last ≤ a.size) :
    ∃ a1, a.eraseRange (a.begin_ + first) (a.begin_ + last) = .ok (a1, a1.begin_ + first) ∧
      a1.toList = a.toList.take first ++ a.toList.drop last ∧
      a1.size = a.size - (last - first) ∧ a1.capacity = a.capacity ∧
      (first = last → a1 = a) := by
  simp only [size, capacity, begin_, Nat.zero_add] at *
  obtain ⟨a1, h1, h2, h3, h4⟩ := eraseRange_ok a first last hfl hls hinv
  refine ⟨a1, h1, h4, h2, h3, ?_⟩
  intro he
  subst he
  simp only [eraseRange, ne_eq, not_true_eq_false, if_false] at h1
  injection h1 with h1
  injection h1 with h1
  exact h1.symm

/-- Witness for C3: capacity 5 holding `[1, 9, 2, 3, 7]`, erasing `[1, 3)` gives
`[1, 3, 7]`. -/
theorem eraseRange_closes_gap_witness :
    (⟨[1, 9, 2, 3, 7], 5⟩ : ArrayListBase Nat).size ≤ (⟨[1, 9, 2, 3, 7], 5⟩ : ArrayListBase Nat).capacity ∧
    1 ≤ 3 ∧ 3 ≤ (⟨[1, 9, 2, 3, 7], 5⟩ : ArrayListBase Nat).size ∧
    ∃ a1, (⟨[1, 9, 2, 3, 7], 5⟩ : ArrayListBase Nat).eraseRange 1 3 = .ok (a1, 1) ∧
      a1.toList = [1, 3, 7] ∧ a1.size = 3 := by
  refine ⟨by decide, by decide, by decide, ?_⟩
  obtain ⟨a1, h1, h2, h3, _⟩ :=
    eraseRange_closes_gap (⟨[1, 9, 2, 3, 7], 5⟩ : ArrayListBase Nat) 1 3
      (by decide) (by decide) (by decide)
  exact ⟨a1, h1, h2, h3⟩

theorem insertThenErase_ok (a : ArrayListBase T) (pos : Nat) (val : Ref T)
    (hfree : a.size_ < a.arr.length) (hpos : pos ≤ a.size_) (hval : a.refValid val) :
    ∃ a2, a.insertThenErase pos val = .ok a2 ∧ a2.size_ = a.size_ ∧
      a2.arr.length = a.arr.length ∧ a2.toList = a.toList := by
  obtain ⟨a1, w, h1, h2, h3, h4, _⟩ := insert_ok a pos val hpos hfree hval
  obtain ⟨a2, g1, g2, g3, g4⟩ := erase_ok a1 pos (by omega) (by omega)
  have hl : (List.take pos a.toList).length = pos := by
    rw [List.length_take, toList_length a (by omega)]
    omega
  refine ⟨a2, ?_, by omega, by omega, ?_⟩
  · simp only [insertThenErase, h1, g1]
  · rw [g4, h4]
    have e1 : List.take pos (List.take pos a.toList ++ w :: List.drop pos a.toList)
        = List.take pos a.toList := by
      rw [List.take_append_eq_append_take, hl]
      simp
    have e2 : List.drop (pos + 1) (List.take pos a.toList ++ w :: List.drop pos a.toList)
        = List.drop pos a.toList := by
      rw [List.drop_append_eq_append_drop, hl]
      simp
    rw [e1, e2, List.take_append_drop]

/-- C4 (as amended): on a non-full list, for every position `pos ≤ size()` and every value
passed to `insert` (by reference to an object outside the storage or to a cell of the
storage), `insert(pos, v)` followed by `erase(pos)` completes and restores the original
sequence: the same `size()`, the same `capacity()` and the same element at every index below
`size()`. -/
theorem insert_then_erase_restores (a : ArrayListBase T) (pos : Nat) (val : Ref T)
    (hfree : a.size < a.capacity) (hpos : pos ≤ a.size) (hval : a.refValid val) :
    ∃ a2, a.insertThenErase pos val = .ok a2 ∧ a2.size = a.size ∧
      a2.capacity = a.capacity ∧ a2.toList = a.toList ∧
      ∀ k, k < a.size → a2.arr[k]? = a.arr[k]? := by
  simp only [size, capacity] at *
  obtain ⟨a2, h1, h2, h3, h4⟩ := insertThenErase_ok a pos val hfree hpos hval
  refine ⟨a2, h1, h2, h3, h4, ?_⟩
  intro k hk
  have e : a2.toList[k]? = a.toList[k]? := by rw [h4]
  simp only [toList, List.getElem?_take] at e
  rw [if_pos (by omega), if_pos hk] at e
  exact e

/-- Witness for C4: capacity 4 holding `[1, 2, 3]`, insert 9 at index 1, then erase
index 1. -/
theorem insert_then_erase_restores_witness :
    (⟨[1, 2, 3, 0], 3⟩ : ArrayListBase Nat).size < (⟨[1, 2, 3, 0], 3⟩ : ArrayListBase Nat).capacity ∧
    1 ≤ (⟨[1, 2, 3, 0], 3⟩ : ArrayListBase Nat).size ∧
    (⟨[1, 2, 3, 0], 3⟩ : ArrayListBase Nat).refValid (.object 9) ∧
    ∃ a2, (⟨[1, 2, 3, 0], 3⟩ : ArrayListBase Nat).insertThenErase 1 (.object 9) = .ok a2 ∧
      a2.size = 3 ∧ a2.toList = [1, 2, 3] := by
  refine ⟨by decide, by decide, trivial, ?_⟩
  obtain ⟨a2, h1, h2, _, h4, _⟩ :=
    insert_then_erase_restores (⟨[1, 2, 3, 0], 3⟩ : ArrayListBase Nat) 1 (.object 9)
      (by decide) (by decide) trivial
  exact ⟨a2, h1, h2, h4⟩

/-- C4 as stated fails on a full list: with capacity 2 holding `[5, 6]`, position 1 is
valid (`1 ≤ size()`), but `insert(begin() + 1, 7)` moves the tail one cell past the end of
the storage, so the call sequence does not complete with the original sequence. -/
theorem insert_then_erase_full_counterexample :
    (⟨[5, 6], 2⟩ : ArrayListBase Nat).size ≤ (⟨[5, 6], 2⟩ : ArrayListBase Nat).capacity ∧
    1 ≤ (⟨[5, 6], 2⟩ : ArrayListBase Nat).size ∧
    (⟨[5, 6], 2⟩ : ArrayListBase Nat).insertThenErase 1 (.object 7)
      = .error .undefinedBehaviour := by
  decide

/-- C5: on a list holding `l` (with `size() ≤ capacity()`), for `first ≤ last ≤ size()`,
`erase(first, last)` followed by re-inserting the removed elements `l[first..last)` in
their original order at positions `first, first + 1, ..., last - 1` completes and restores
`l`: the same `size()`, the same `capacity()` and the same element at every index below
`size()`. -/
theorem erase_then_reinsert_restores (a : ArrayListBase T) (first last : Nat)
    (hinv : a.size ≤ a.capacity) (hfl : first ≤ last) (hls : last ≤ a.size) :
    ∃ a2, a.eraseThenReinsert first last = .ok a2 ∧ a2.size = a.size ∧
      a2.capacity = a.capacity ∧ a2.toList = a.toList ∧
      ∀ k, k < a.size → a2.arr[k]? = a.arr[k]? := by
  simp only [size, capacity] at *
  obtain ⟨a1, h1, h2, h3, h4⟩ := eraseRange_ok a first last hfl hls hinv
  have hlen : a.toList.length = a.size_ := toList_length a hinv
  have hrem : ((a.toList.drop first).take (last - first)).length = last - first := by
    rw [List.length_take, List.length_drop, hlen]
    omega
  obtain ⟨a2, g1, g2, g3, g4⟩ := insertAll_ok ((a.toList.drop first).take (last - first))
    a1 first (by omega) (by omega)
  have hl : (List.take first a.toList).length = first := by
    rw [List.length_take, hlen]
    omega
  have h5 : a2.toList = a.toList := by
    rw [g4, h4]
    have e1 : List.take first (List.take first a.toList ++ List.drop last a.toList)
        = List.take first a.toList := by
      rw [List.take_append_eq_append_take, hl]
      simp
    have e2 : List.drop first (List.take first a.toList ++ List.drop last a.toList)
        = List.drop last a.toList := by
      rw [List.drop_append_eq_append_drop, hl]
      simp
    have e3 : List.drop last a.toList
        = List.drop (last - first) (List.drop first a.toList) := by
      rw [List.drop_drop]
      congr 1
      omega
    rw [e1, e2, e3, List.append_assoc, List.take_append_drop, List.take_append_drop]
  refine ⟨a2, ?_, by omega, by omega, h5, ?_⟩
  · simp only [eraseThenReinsert, h1]
    exact g1
  · intro k hk
    have e : a2.toList[k]? = a.toList[k]? := by rw [h5]
    simp only [toList, List.getElem?_take] at e
    rw [if_pos (by omega), if_pos hk] at e
    exact e

/-- Witness for C5: capacity 5 holding `[1, 9, 2, 3, 7]`, erase `[1, 3)` and re-insert
9, 2 at positions 1, 2. -/
theorem erase_then_reinsert_restores_witness :
    (⟨[1, 9, 2, 3, 7], 5⟩ : ArrayListBase Nat).size ≤ (⟨[1, 9, 2, 3, 7], 5⟩ : ArrayListBase Nat).capacity ∧
    1 ≤ 3 ∧ 3 ≤ (⟨[1, 9, 2, 3, 7], 5⟩ : ArrayListBase Nat).size ∧
    ∃ a2, (⟨[1, 9, 2, 3, 7], 5⟩ : ArrayListBase Nat).eraseThenReinsert 1 3 = .ok a2 ∧
      a2.size = 5 ∧ a2.toList = [1, 9, 2, 3, 7] := by
  refine ⟨by decide, by decide, by decide, ?_⟩
  obtain ⟨a2, h1, h2, _, h4, _⟩ :=
    erase_then_reinsert_restores (⟨[1, 9, 2, 3, 7], 5⟩ : ArrayListBase Nat) 1 3
      (by decide) (by decide) (by decide)
  exact ⟨a2, h1, h2, h4⟩

theorem push_back_full (a : ArrayListBase T) (d : T) (h : a.size = a.capacity) :
    a.push_back d = .error .assertion := by
  simp only [size, capacity] at h
  simp [push_back, max_size, h]

theorem emplace_back_full {A : Type} (a : ArrayListBase T) (ctor : A → T) (args : A)
    (h : a.size = a.capacity) : a.emplace_back ctor args = .error .assertion := by
  simp only [size, capacity] at h
  simp [emplace_back, max_size, h]

theorem resize_above_capacity (a : ArrayListBase T) (n : Nat) (h : a.capacity < n) :
    a.resize n = .error .assertion := by
  simp only [capacity] at h
  simp [resize, max_size, h]

theorem at_asserts_iff (a : ArrayListBase T) (idx : Nat) :
    a.at_ idx = .error .assertion ↔ a.size ≤ idx := by
  unfold at_ index
  by_cases h : idx < a.size
  · rw [if_pos h]
    constructor
    · intro h1
      split at h1
      · split at h1 <;> simp at h1
      · simp at h1
    · intro h2
      omega
  · rw [if_neg h]
    constructor
    · intro _
      omega
    · intro _
      rfl

theorem pop_back_asserts_iff (a : ArrayListBase T) :
    a.pop_back = .error .assertion ↔ a.empty = true := by
  unfold pop_back empty size
  by_cases h : a.size_ = 0
  · simp [h]
  · simp [h]

theorem insert_full (a : ArrayListBase T) (idx : Nat) (val : Ref T)
    (h : a.size = a.capacity) (hidx : idx ≤ a.size) :
    a.insert idx val = .error .undefinedBehaviour := by
  simp only [size, capacity] at h hidx
  by_cases hn : a.size_ - idx = 0
  · have h1 : ¬ idx < a.arr.length := by omega
    simp only [insert, size, hidx, if_true, hn, ne_eq, not_true_eq_false, if_false]
    cases hv : val.read a.arr with
    | error e =>
      cases val with
      | object v => simp [Ref.read] at hv
      | cell j =>
        simp only [Ref.read] at hv
        split at hv
        · simp at hv
        · injection hv with hv
          subst hv
          rfl
    | ok v => simp [store, h1]
  · have h1 : ¬ (idx + (a.size_ - idx) ≤ a.arr.length ∧
        idx + 1 + (a.size_ - idx) ≤ a.arr.length) := by omega
    simp only [insert, size, hidx, if_true, hn, ne_eq, not_false_eq_true, memmove, if_neg h1]

/-- C6 (the failing part, evaluated): on the full list of capacity 2 holding `[1, 2]`,
`push_back` and `emplace_back` stop at their assertion, while `insert(begin() + 1, 9)`
fails no assertion: its block move writes one cell past the end of the storage. -/
theorem insert_on_full_list_not_asserted :
    (⟨[1, 2], 2⟩ : ArrayListBase Nat).size = (⟨[1, 2], 2⟩ : ArrayListBase Nat).capacity ∧
    (⟨[1, 2], 2⟩ : ArrayListBase Nat).push_back 9 = .error .assertion ∧
    (⟨[1, 2], 2⟩ : ArrayListBase Nat).emplace_back id 9 = .error .assertion ∧
    (⟨[1, 2], 2⟩ : ArrayListBase Nat).insert 1 (.object 9) = .error .undefinedBehaviour ∧
    (⟨[1, 2], 2⟩ : ArrayListBase Nat).insert 1 (.object 9) ≠ .error .assertion := by
  decide

/-- C7: `size() ≤ capacity()` holds for a newly constructed list and is kept, with
`capacity()` unchanged, by `resize`, `clear`, `pop_back`, `push_back`, `emplace_back`,
`insert`, `erase(position)` and `erase(first, last)`, each of which completes when called
with its precondition met (for `insert`, whatever object or storage cell its `const T&`
argument is bound to). -/
theorem size_le_capacity_invariant (a : ArrayListBase T) (hinv : a.size ≤ a.capacity) :
    (∀ storage : List T, (ofStorage storage).size ≤ (ofStorage storage).capacity) ∧
    (∀ n, n ≤ a.capacity →
      ∃ a1, a.resize n = .ok a1 ∧ a1.size ≤ a1.capacity ∧ a1.capacity = a.capacity) ∧
    (a.clear.size ≤ a.clear.capacity ∧ a.clear.capacity = a.capacity) ∧
    (a.size ≠ 0 →
      ∃ a1, a.pop_back = .ok a1 ∧ a1.size ≤ a1.capacity ∧ a1.capacity = a.capacity) ∧
    (a.size < a.capacity → ∀ d,
      ∃ a1, a.push_back d = .ok a1 ∧ a1.size ≤ a1.capacity ∧ a1.capacity = a.capacity) ∧
    (a.size < a.capacity → ∀ (A : Type) (ctor : A → T) (args : A),
      ∃ a1 ref, a.emplace_back ctor args = .ok (a1, ref) ∧ a1.size ≤ a1.capacity ∧
        a1.capacity = a.capacity) ∧
    (a.size < a.capacity → ∀ pos (val : Ref T), a.refValid val → pos ≤ a.size →
      ∃ a1 it, a.insert pos val = .ok (a1, it) ∧ a1.size ≤ a1.capacity ∧
        a1.capacity = a.capacity) ∧
    (∀ pos, pos < a.size →
      ∃ a1 it, a.erase pos = .ok (a1, it) ∧ a1.size ≤ a1.capacity ∧
        a1.capacity = a.capacity) ∧
    (∀ first last, first ≤ last → last ≤ a.size →
      ∃ a1 it, a.eraseRange first last = .ok (a1, it) ∧ a1.size ≤ a1.capacity ∧
        a1.capacity = a.capacity) := by
  simp only [size, capacity] at *
  refine ⟨?_, ?_, ?_, ?_, ?_, ?_, ?_, ?_, ?_⟩
  · intro storage
    simp [ofStorage]
  · intro n hn
    exact ⟨{ a with size_ := n }, by simp [resize, max_size, hn], hn, rfl⟩
  · simp [clear]
  · intro h
    exact ⟨{ a with size_ := a.size_ - 1 }, by simp [pop_back, h], by simp; omega, rfl⟩
  · intro h d
    refine ⟨_, push_back_ok a d h, ?_, ?_⟩
    · simp only [List.length_set]
      omega
    · simp
  · intro h A ctor args
    refine ⟨⟨a.arr.set a.size_ (ctor args), a.size_ + 1⟩, a.size_, ?_, ?_, ?_⟩
    · simp [emplace_back, max_size, store, h]
    · simp only [List.length_set]
      omega
    · simp
  · intro h pos val hval hpos
    obtain ⟨a1, _, h1, h2, h3, _⟩ := insert_ok a pos val hpos h hval
    exact ⟨a1, pos, h1, by omega, h3⟩
  · intro pos hpos
    obtain ⟨a1, h1, h2, h3, _⟩ := erase_ok a pos hpos hinv
    exact ⟨a1, pos, h1, by omega, h3⟩
  · intro first last hfl hls
    obtain ⟨a1, h1, h2, h3, _⟩ := eraseRange_ok a first last hfl hls hinv
    exact ⟨a1, first, h1, by omega, h3⟩

/-- Witness for C7: capacity 4 holding `[1, 2, 3]`; `push_back(9)` completes and keeps
`size() ≤ capacity()` with the capacity still 4. -/
theorem size_le_capacity_invariant_witness :
    (⟨[1, 2, 3, 0], 3⟩ : ArrayListBase Nat).size ≤ (⟨[1, 2, 3, 0], 3⟩ : ArrayListBase Nat).capacity ∧
    ∃ a1, (⟨[1, 2, 3, 0], 3⟩ : ArrayListBase Nat).push_back 9 = .ok a1 ∧
      a1.size ≤ a1.capacity ∧ a1.capacity = 4 :=
  ⟨by decide,
    (size_le_capacity_invariant (⟨[1, 2, 3, 0], 3⟩ : ArrayListBase Nat) (by decide)).2.2.2.2.1
      (by decide) 9⟩

/-- C8: `clear()` makes `size()` zero, so `empty()` holds and `begin() == end()`, and
leaves `capacity()` and `max_size()` as they were. -/
theorem clear_resets_size_only (a : ArrayListBase T) :
    a.clear.size = 0 ∧ a.clear.empty = true ∧ a.clear.begin_ = a.clear.end_ ∧
    a.clear.capacity = a.capacity ∧ a.clear.max_size = a.max_size := by
  simp [clear, size, empty, begin_, end_, capacity, max_size]

end ArrayListBase

end IG

/-! ## The claims about `Base::Screen` -/

namespace Base

namespace Screen

theorem updateRefreshRate_frame (recip : FloatVal → FloatVal) (s : Screen) (r : FloatVal) :
    (s.updateRefreshRate recip r).frameTime_ = recip (s.updateRefreshRate recip r).refreshRate_ ∧
    (s.updateRefreshRate recip r).framePosted = s.framePosted ∧
    (s.updateRefreshRate recip r).inFrameHandler = s.inFrameHandler ∧
    (s.updateRefreshRate recip r).prevFrameTimestamp = s.prevFrameTimestamp := by
  unfold updateRefreshRate
  split <;> simp

theorem updateRefreshRate_out_of_range (recip : FloatVal → FloatVal) (s : Screen)
    (r : FloatVal) (h : r.lt (.finite 20) = true ∨ r.gt (.finite 250) = true) :
    (s.updateRefreshRate recip r).refreshRate_ = .finite 60 ∧
    (s.updateRefreshRate recip r).reliableRefreshRate = false := by
  have hc : (r.lt (.finite 20) || r.gt (.finite 250)) = true := by
    simpa using h
  simp [updateRefreshRate, hc]

theorem updateRefreshRate_in_range (recip : FloatVal → FloatVal) (s : Screen)
    (r : FloatVal) (h : r.within 20 250) :
    (s.updateRefreshRate recip r).refreshRate_ = r ∧
    (s.updateRefreshRate recip r).reliableRefreshRate = s.reliableRefreshRate := by
  cases r with
  | finite q =>
    obtain ⟨h1, h2⟩ := h
    have hc : ((FloatVal.finite q).lt (.finite 20) || (FloatVal.finite q).gt (.finite 250))
        = false := by
      simp [FloatVal.lt, FloatVal.gt, h1, h2]
    simp [updateRefreshRate, hc]
  | nan => exact absurd h (by simp [FloatVal.within])
  | negInf => exact absurd h (by simp [FloatVal.within])
  | posInf => exact absurd h (by simp [FloatVal.within])

theorem updateRefreshRate_of_number (recip : FloatVal → FloatVal) (s : Screen)
    (r : FloatVal) (h : r ≠ .nan) :
    (r.lt (.finite 20) = true ∨ r.gt (.finite 250) = true ∨ r.within 20 250) ∧
    (s.updateRefreshRate recip r).refreshRate_.within 20 250 := by
  cases r with
  | nan => exact absurd rfl h
  | negInf =>
    refine ⟨Or.inl rfl, ?_⟩
    rw [(updateRefreshRate_out_of_range recip s .negInf (Or.inl rfl)).1]
    simp only [FloatVal.within]
    norm_num
  | posInf =>
    refine ⟨Or.inr (Or.inl rfl), ?_⟩
    rw [(updateRefreshRate_out_of_range recip s .posInf (Or.inr rfl)).1]
    simp only [FloatVal.within]
    norm_num
  | finite q =>
    by_cases h1 : q < 20
    · have hl : (FloatVal.finite q).lt (.finite 20) = true := by simp [FloatVal.lt, h1]
      refine ⟨Or.inl hl, ?_⟩
      rw [(updateRefreshRate_out_of_range recip s _ (Or.inl hl)).1]
      simp only [FloatVal.within]
      norm_num
    · by_cases h2 : 250 < q
      · have hg : (FloatVal.finite q).gt (.finite 250) = true := by
          simp [FloatVal.gt, FloatVal.lt, h2]
        refine ⟨Or.inr (Or.inl hg), ?_⟩
        rw [(updateRefreshRate_out_of_range recip s _ (Or.inr hg)).1]
        simp only [FloatVal.within]
        norm_num
      · have hw : (FloatVal.finite q).within 20 250 := ⟨not_lt.mp h1, not_lt.mp h2⟩
        refine ⟨Or.inr (Or.inr hw), ?_⟩
        rw [(updateRefreshRate_in_range recip s _ hw).1]
        exact hw

theorem updateRefreshRate_300 (recip : FloatVal → FloatVal) (s : Screen) :
    (s.updateRefreshRate recip (.finite 300)).refreshRate_ = .finite 60 ∧
    (s.updateRefreshRate recip (.finite 300)).reliableRefreshRate = false :=
  updateRefreshRate_out_of_range recip s _ (Or.inr (by
    simp only [FloatVal.gt, FloatVal.lt, decide_eq_true_eq]
    norm_num))

theorem updateRefreshRate_75 (recip : FloatVal → FloatVal) (s : Screen) :
    (s.updateRefreshRate recip (.finite 75)).refreshRate_ = .finite 75 ∧
    (s.updateRefreshRate recip (.finite 75)).reliableRefreshRate = s.reliableRefreshRate :=
  updateRefreshRate_in_range recip s _ (by simp only [FloatVal.within]; norm_num)

/-- C9 (the failing input, evaluated): for a NaN rate neither `refreshRate < 20.f` nor
`refreshRate > 250.f` holds, so the sanity check is passed: the NaN is stored as the refresh
rate, the reliability flag is left as it was, and the stored rate is not within
`[20, 250]`. -/
theorem updateRefreshRate_nan_not_clamped (recip : FloatVal → FloatVal) (s : Screen) :
    (s.updateRefreshRate recip .nan).refreshRate_ = .nan ∧
    (s.updateRefreshRate recip .nan).reliableRefreshRate = s.reliableRefreshRate ∧
    (s.updateRefreshRate recip .nan).frameTime_ = recip .nan ∧
    ¬ (s.updateRefreshRate recip .nan).refreshRate_.within 20 250 := by
  simp [updateRefreshRate, FloatVal.lt, FloatVal.gt, FloatVal.within]

end Screen

namespace ScreenSet

/-- C10: `postFrame` leaves the whole state as it is when the screen set is inactive or
the screen is already posted, and otherwise sets the posted flag and arms the frame timer
with exactly one `scheduleVSync` call (clearing the previous-frame time stamp unless inside
the frame handler); `unpostFrame` leaves the whole state as it is when the screen is not
posted and otherwise clears the flag; calling `postFrame` twice gives the same state as
calling it once, and so does `unpostFrame`. -/
theorem postFrame_unpostFrame_idempotent (w : ScreenSet) :
    ((w.isActive = false ∨ w.self.framePosted = true) → w.postFrame = w) ∧
    ((w.isActive = true ∧ w.self.framePosted = false) →
      w.postFrame.self.framePosted = true ∧
      w.postFrame.frameTimer = w.frameTimer.scheduleVSync ∧
      w.postFrame.frameTimer.armed = true ∧
      w.postFrame.frameTimer.calls = w.frameTimer.calls ++ [TimerCall.scheduleVSync] ∧
      w.postFrame.self.prevFrameTimestamp
        = (if w.self.inFrameHandler then w.self.prevFrameTimestamp else 0) ∧
      w.postFrame.others = w.others ∧ w.postFrame.isActive = w.isActive) ∧
    (w.self.framePosted = false → w.unpostFrame = w) ∧
    (w.self.framePosted = true →
      w.unpostFrame.self.framePosted = false ∧ w.unpostFrame.others = w.others ∧
      w.unpostFrame.isActive = w.isActive) ∧
    w.postFrame.postFrame = w.postFrame ∧
    w.unpostFrame.unpostFrame = w.unpostFrame := by
  refine ⟨?_, ?_, ?_, ?_, ?_, ?_⟩
  · rintro (h | h) <;> simp [postFrame, h]
  · rintro ⟨h1, h2⟩
    cases h3 : w.self.inFrameHandler <;>
      simp [postFrame, h1, h2, h3, FrameTimer.scheduleVSync]
  · intro h
    simp [unpostFrame, h]
  · intro h
    simp only [unpostFrame, h, Bool.not_true, Bool.false_eq_true, if_false]
    split <;> simp
  · by_cases h1 : w.isActive = true
    · by_cases h2 : w.self.framePosted = true
      · simp [postFrame, h1, h2]
      · cases h3 : w.self.inFrameHandler <;> simp [postFrame, h1, h2, h3]
    · simp [postFrame, h1]
  · by_cases h : w.self.framePosted = true
    · simp only [unpostFrame, h, Bool.not_true, Bool.false_eq_true, if_false]
      split <;> simp [unpostFrame]
    · simp [unpostFrame, h]

theorem cancel_ne_self (t : FrameTimer) : t.cancel ≠ t := by
  intro h
  have hl : t.cancel.calls.length = t.calls.length := by rw [h]
  simp [FrameTimer.cancel] at hl

theorem screensArePosted_cleared (w : ScreenSet) :
    ({ w with self := { w.self with framePosted := false } } : ScreenSet).screensArePosted
        = false ↔ ∀ s ∈ w.others, s.framePosted = false := by
  simp [screensArePosted]

theorem unpostFrame_not_posted (w : ScreenSet) (h : w.self.framePosted = false) :
    w.unpostFrame = w := by
  simp [unpostFrame, h]

theorem unpostFrame_last_posted (w : ScreenSet) (h : w.self.framePosted = true)
    (ho : ∀ s ∈ w.others, s.framePosted = false) :
    w.unpostFrame = { w with self := { w.self with framePosted := false },
                             frameTimer := w.frameTimer.cancel } := by
  have hc := (screensArePosted_cleared w).mpr ho
  simp only [unpostFrame, h, Bool.not_true, Bool.false_eq_true, if_false, hc, Bool.not_false,
    if_true]

theorem unpostFrame_other_posted (w : ScreenSet) (h : w.self.framePosted = true)
    (ho : ∃ s ∈ w.others, s.framePosted = true) :
    w.unpostFrame = { w with self := { w.self with framePosted := false } } := by
  have hc : ({ w with self := { w.self with framePosted := false } } : ScreenSet).screensArePosted
      = true := by
    simpa [screensArePosted] using ho
  simp only [unpostFrame, h, Bool.not_true, Bool.false_eq_true, if_false, hc]

/-- C11: for a set of screens sharing the frame timer and a screen `s` of it, `unpostFrame`
on `s` cancels the timer (one `cancel` call, timer disarmed) if and only if `s` was posted
before the call and, once its flag is cleared, no screen of the set is posted, which is the
same as no other screen being posted; if `s` was not posted, or some other screen is still
posted, the timer is left exactly as it was; in every case the other screens are left as
they were. -/
theorem unpostFrame_cancels_timer_iff (w : ScreenSet) :
    (w.unpostFrame.frameTimer = w.frameTimer.cancel ↔
      (w.self.framePosted = true ∧
        ({ w with self := { w.self with framePosted := false } } : ScreenSet).screensArePosted
          = false)) ∧
    (({ w with self := { w.self with framePosted := false } } : ScreenSet).screensArePosted
        = false ↔ ∀ s ∈ w.others, s.framePosted = false) ∧
    (w.unpostFrame.frameTimer = w.frameTimer.cancel →
      w.unpostFrame.frameTimer.armed = false ∧
      w.unpostFrame.frameTimer.calls = w.frameTimer.calls ++ [TimerCall.cancel] ∧
      w.unpostFrame.screensArePosted = false) ∧
    ((w.self.framePosted = false ∨ ∃ s ∈ w.others, s.framePosted = true) →
      w.unpostFrame.frameTimer = w.frameTimer) ∧
    w.unpostFrame.others = w.others := by
  have key : w.unpostFrame.frameTimer = w.frameTimer.cancel ↔
      (w.self.framePosted = true ∧ ∀ s ∈ w.others, s.framePosted = false) := by
    by_cases h : w.self.framePosted = true
    · by_cases ho : ∀ s ∈ w.others, s.framePosted = false
      · rw [unpostFrame_last_posted w h ho]
        exact ⟨fun _ => ⟨h, ho⟩, fun _ => rfl⟩
      · have ho2 : ∃ s ∈ w.others, s.framePosted = true := by
          simpa using ho
        rw [unpostFrame_other_posted w h ho2]
        constructor
        · intro e
          exact absurd e.symm (cancel_ne_self w.frameTimer)
        · intro e
          exact absurd e.2 ho
    · have h2 : w.self.framePosted = false := by simpa using h
      rw [unpostFrame_not_posted w h2]
      constructor
      · intro e
        exact absurd e.symm (cancel_ne_self w.frameTimer)
      · intro e
        exact absurd e.1 h
  refine ⟨?_, screensArePosted_cleared w, ?_, ?_, ?_⟩
  · rw [key, screensArePosted_cleared w]
  · intro e
    obtain ⟨h, ho⟩ := key.mp e
    rw [unpostFrame_last_posted w h ho]
    refine ⟨rfl, rfl, ?_⟩
    exact (screensArePosted_cleared w).mpr ho
  · rintro (h | ho)
    · rw [unpostFrame_not_posted w h]
    · by_cases h : w.self.framePosted = true
      · rw [unpostFrame_other_posted w h ho]
      · rw [unpostFrame_not_posted w (by simpa using h)]
  · by_cases h : w.self.framePosted = true
    · by_cases ho : ∀ s ∈ w.others, s.framePosted = false
      · rw [unpostFrame_last_posted w h ho]
      · rw [unpostFrame_other_posted w h (by simpa using ho)]
    · rw [unpostFrame_not_posted w (by simpa using h)]

end ScreenSet

end Base
